import Mathlib

/-!
Shallow embedding of the rplex lexing engine (src/lex.go).

The engine scans a Unicode text rune by rune.  The embedding works at rune
granularity: the input `Text` is the list of decoded runes, positions count
runes, and every successfully decoded unit has width 1 (Go widths are byte
counts, but no claim depends on the byte width of a multi-byte rune, only on
the correspondence between positions and decoded units).  `utf8.DecodeRuneInString`
on an empty suffix yields the replacement rune U+FFFD with width 0, which is
what `decodeRuneInString` below does on `[]`.  A Go string holding a literal
U+FFFD decodes to the same rune value `utf8.RuneError`, which is why the
sentinel can also be hit in the middle of the text.

Loops of the source are modelled by well-founded recursion on the number of
units left to scan.  `AcceptRun`/`AcceptRunFunc` in Go loop forever when an
iteration consumes nothing while the membership test keeps succeeding (this
happens exactly when the cursor sits at end of input and the sentinel rune is
in the accepted set); the embedding returns `none` for precisely those runs
and `some` of the final state otherwise.
-/

namespace Rplex

/-- Model of `utf8.RuneError`: the replacement character U+FFFD. -/
def runeError : Char := Char.ofNat 0xFFFD

/-- Model of `utf8.DecodeRuneInString`: the first unit of the remaining input
together with its width, and `(RuneError, 0)` when the input is exhausted. -/
def decodeRuneInString : List Char → Char × Nat
  | [] => (runeError, 0)
  | c :: _ => (c, 1)

/-- Model of `strings.ContainsRune valid r` (the `valid`/`delims` strings of
the source are modelled as their lists of runes). -/
def containsRune (s : List Char) (r : Char) : Bool := s.contains r

/-- The `Lexer` struct of lex.go.  The `Token` interface of the source only
stores the text put into it by `Emit`, so `Tokens` holds each emitted token's
text, in emission order. -/
structure Lexer where
  Text : List Char
  Pos : Nat
  Width : Nat
  Cur : Char
  Prev : Char
  Tokens : List (List Char)
  TokenStart : Nat
deriving Repr, DecidableEq

/-- Model of `Text[a:b]`, the Go substring from byte offset `a` up to `b`. -/
def substring (t : List Char) (a b : Nat) : List Char := (t.take b).drop a

/-- The `New` constructor: `Pos = TokenStart = 0`, empty token list, and Go
zero values for the remaining fields. -/
def New (text : List Char) : Lexer :=
  { Text := text, Pos := 0, Width := 0, Cur := Char.ofNat 0, Prev := Char.ofNat 0,
    Tokens := [], TokenStart := 0 }

/-- The `Next` method: decode the unit at `Pos`, advance `Pos` by its width,
record the width and shift `Cur` into `Prev`.  Returns the decoded unit
together with the updated lexer (the Go method mutates the receiver). -/
def Next (l : Lexer) : Char × Lexer :=
  let p := decodeRuneInString (l.Text.drop l.Pos)
  (p.1, { l with Pos := l.Pos + p.2, Width := p.2, Prev := l.Cur, Cur := p.1 })

/-- The `Backup` method: move `Pos` back by `Width`.  Usable only once per
call of `Next` (documented precondition of the source). -/
def Backup (l : Lexer) : Lexer := { l with Pos := l.Pos - l.Width }

/-- The `Peek` method: `Next` followed by `Backup`; returns the decoded unit
and the resulting state. -/
def Peek (l : Lexer) : Char × Lexer := ((Next l).1, Backup (Next l).2)

/-- The `Ignore` method: discard the pending text by setting
`TokenStart := Pos`. -/
def Ignore (l : Lexer) : Lexer := { l with TokenStart := l.Pos }

/-- The `Emit` method: the emitted token's text is `Text[TokenStart:Pos]`;
it is appended to `Tokens` and `TokenStart` moves up to `Pos`. -/
def Emit (l : Lexer) : Lexer :=
  { l with Tokens := l.Tokens ++ [substring l.Text l.TokenStart l.Pos],
           TokenStart := l.Pos }

/-- The `Accept` method: consume the next unit and keep it when it belongs to
`valid`, otherwise back up; returns whether the membership test succeeded. -/
def Accept (valid : List Char) (l : Lexer) : Bool × Lexer :=
  if containsRune valid (Next l).1 then (true, (Next l).2)
  else (false, Backup (Next l).2)

/-- The `AcceptFunc` method: like `Accept` but driven by a `RuneCheck`
predicate, and without a return value. -/
def AcceptFunc (fn : Char → Bool) (l : Lexer) : Lexer :=
  if fn (Next l).1 then (Next l).2
  else Backup (Next l).2

/-- The `AcceptRun` method: `for strings.ContainsRune(valid, l.Next()) {}`
followed by one `Backup`.  The guard names the unit of progress the Go loop
makes; when the test succeeds without progress the Go loop never terminates,
modelled by `none`. -/
def AcceptRun (valid : List Char) (l : Lexer) : Option Lexer :=
  if containsRune valid (Next l).1 then
    if h : (Next l).2.Text.length - (Next l).2.Pos < l.Text.length - l.Pos then
      AcceptRun valid (Next l).2
    else none
  else some (Backup (Next l).2)
termination_by l.Text.length - l.Pos
decreasing_by exact h

/-- The `AcceptRunFunc` method: same loop as `AcceptRun`, driven by a
`RuneCheck` predicate. -/
def AcceptRunFunc (fn : Char → Bool) (l : Lexer) : Option Lexer :=
  if fn (Next l).1 then
    if h : (Next l).2.Text.length - (Next l).2.Pos < l.Text.length - l.Pos then
      AcceptRunFunc fn (Next l).2
    else none
  else some (Backup (Next l).2)
termination_by l.Text.length - l.Pos
decreasing_by exact h

/-- The `AcceptUntil` method: consume units while they are not in `delims`;
on a delimiter back up so it is not consumed, and stop without backing up when
the decoded unit is the sentinel (`l.Cur == utf8.RuneError` in the source).
Every non-sentinel unit has width 1, so the loop terminates. -/
def AcceptUntil (delims : List Char) (l : Lexer) : Lexer :=
  if containsRune delims (Next l).1 then Backup (Next l).2
  else if h2 : (Next l).2.Cur = runeError then (Next l).2
  else AcceptUntil delims (Next l).2
termination_by l.Text.length - l.Pos
decreasing_by
  rcases hd : l.Text.drop l.Pos with _ | ⟨c, rest⟩
  · exact absurd (by simp [Next, decodeRuneInString, hd]) h2
  · have hlt : l.Pos < l.Text.length := by
      by_contra hle
      rw [List.drop_eq_nil_of_le (Nat.le_of_not_lt hle)] at hd
      simp at hd
    simp [Next, decodeRuneInString, hd]
    omega

/-- The body of `AcceptUntilUnescaped`: the loop of the source with its
`inEscape` flag made an explicit parameter.  Branches in source order: an
unescaped `\` turns the flag on and continues; an unescaped delimiter backs
up and stops; the sentinel stops; otherwise the unit is consumed and the flag
is cleared. -/
def AcceptUntilUnescapedAux (delims : List Char) (l : Lexer) (inEscape : Bool) : Lexer :=
  if h1 : (Next l).1 = '\\' ∧ inEscape = false then
    AcceptUntilUnescapedAux delims (Next l).2 true
  else if containsRune delims (Next l).1 = true ∧ inEscape = false then
    Backup (Next l).2
  else if h3 : (Next l).2.Cur = runeError then (Next l).2
  else AcceptUntilUnescapedAux delims (Next l).2 false
termination_by l.Text.length - l.Pos
decreasing_by
  · rcases hd : l.Text.drop l.Pos with _ | ⟨c, rest⟩
    · have herr : (Next l).1 = runeError := by simp [Next, decodeRuneInString, hd]
      rw [herr] at h1
      exact absurd h1.1 (by decide)
    · have hlt : l.Pos < l.Text.length := by
        by_contra hle
        rw [List.drop_eq_nil_of_le (Nat.le_of_not_lt hle)] at hd
        simp at hd
      simp [Next, decodeRuneInString, hd]
      omega
  · rcases hd : l.Text.drop l.Pos with _ | ⟨c, rest⟩
    · exact absurd (by simp [Next, decodeRuneInString, hd]) h3
    · have hlt : l.Pos < l.Text.length := by
        by_contra hle
        rw [List.drop_eq_nil_of_le (Nat.le_of_not_lt hle)] at hd
        simp at hd
      simp [Next, decodeRuneInString, hd]
      omega

/-- The `AcceptUntilUnescaped` method: the loop starts with `inEscape = false`. -/
def AcceptUntilUnescaped (delims : List Char) (l : Lexer) : Lexer :=
  AcceptUntilUnescapedAux delims l false

/-- The unit `Next` would decode at the current position (an observation used
to state the claims; it does not move the cursor). -/
def nextUnit (l : Lexer) : Char := (Next l).1

/-- One public operation of the engine, for stating properties of arbitrary
call sequences. -/
inductive Op where
  | next
  | backup
  | peek
  | ignore
  | emit
  | accept (valid : List Char)
  | acceptRun (valid : List Char)
  | acceptFunc (fn : Char → Bool)
  | acceptRunFunc (fn : Char → Bool)
  | acceptUntil (delims : List Char)
  | acceptUntilUnescaped (delims : List Char)

/-- Apply one operation to the lexer state.  Divergent `AcceptRun` /
`AcceptRunFunc` calls yield `none`; all other operations always return a
state. -/
def applyOp : Op → Lexer → Option Lexer
  | .next, l => some (Next l).2
  | .backup, l => some (Backup l)
  | .peek, l => some (Peek l).2
  | .ignore, l => some (Ignore l)
  | .emit, l => some (Emit l)
  | .accept v, l => some (Accept v l).2
  | .acceptRun v, l => AcceptRun v l
  | .acceptFunc f, l => some (AcceptFunc f l)
  | .acceptRunFunc f, l => AcceptRunFunc f l
  | .acceptUntil d, l => some (AcceptUntil d l)
  | .acceptUntilUnescaped d, l => some (AcceptUntilUnescaped d l)

/-- Apply a sequence of operations in order. -/
def applyOps : List Op → Lexer → Option Lexer
  | [], l => some l
  | op :: ops, l =>
    match applyOp op l with
    | none => none
    | some l₁ => applyOps ops l₁

/-- Call sequences in which every `backup` immediately follows a `next`.
This is a strengthening of the documented precondition of `Backup` ("can
only be used once per call of next()", formalised count-based as
`BackupOncePerNext` below): adjacency additionally rules out sequences such
as next, emit, backup, which the documentation permits but which break the
`TokenStart ≤ Pos` part of the invariant. -/
inductive UsesBackupOnceAfterNext : List Op → Prop
  | nil : UsesBackupOnceAfterNext []
  | nextBackup {ops : List Op} (h : UsesBackupOnceAfterNext ops) :
      UsesBackupOnceAfterNext (Op.next :: Op.backup :: ops)
  | cons {op : Op} {ops : List Op} (hne : op ≠ Op.backup)
      (h : UsesBackupOnceAfterNext ops) : UsesBackupOnceAfterNext (op :: ops)

/-- The documented precondition of `Backup` exactly as the source states it
("can only be used once per call of next()"): a `backup` is permitted only
when a `next` has occurred since the last `backup`; any other operations may
come in between.  The flag records whether a `backup` is currently
permitted; a fresh lexer starts with no pending `next`, hence flag
`false`. -/
def BackupOncePerNext : List Op → Bool → Bool
  | [], _ => true
  | Op.next :: ops, _ => BackupOncePerNext ops true
  | Op.backup :: ops, canBackup => canBackup && BackupOncePerNext ops false
  | _ :: ops, canBackup => BackupOncePerNext ops canBackup

/-- A segment of input text consumed for output purposes: either emitted as a
token's text or discarded by `Ignore`. -/
inductive Seg where
  | emitted (t : List Char)
  | ignored (t : List Char)
deriving Repr, DecidableEq

/-- The text carried by a segment. -/
def Seg.text : Seg → List Char
  | .emitted t => t
  | .ignored t => t

/-- The segments an operation produces from state `l`: `emit` records the
emitted token's text, `ignore` records the discarded text, everything else
produces nothing. -/
def opSegs : Op → Lexer → List Seg
  | .emit, l => [.emitted (substring l.Text l.TokenStart l.Pos)]
  | .ignore, l => [.ignored (substring l.Text l.TokenStart l.Pos)]
  | _, _ => []

/-- Apply a sequence of operations, also collecting the emitted and ignored
segments in order. -/
def applyOpsTraced : List Op → Lexer → Option (Lexer × List Seg)
  | [], l => some (l, [])
  | op :: ops, l =>
    match applyOp op l with
    | none => none
    | some l₁ =>
      match applyOpsTraced ops l₁ with
      | none => none
      | some (l', ss) => some (l', opSegs op l ++ ss)

/-- The texts of the emitted segments, in order. -/
def emittedTexts (ss : List Seg) : List (List Char) :=
  ss.filterMap fun s =>
    match s with
    | .emitted t => some t
    | .ignored _ => none

/-- The cursor invariant of the specification:
`0 ≤ TokenStart ≤ Pos ≤ len(Text)`. -/
def Inv (l : Lexer) : Prop :=
  l.TokenStart ≤ l.Pos ∧ l.Pos ≤ l.Text.length

/-- The example input `123\"abc"def` of the escaping law, as a list of
runes. -/
def escText : List Char := ['1', '2', '3', '\\', '"', 'a', 'b', 'c', '"', 'd', 'e', 'f']

lemma next_text (l : Lexer) : (Next l).2.Text = l.Text := rfl

lemma next_tokenStart (l : Lexer) : (Next l).2.TokenStart = l.TokenStart := rfl

lemma next_tokens (l : Lexer) : (Next l).2.Tokens = l.Tokens := rfl

lemma next_cur (l : Lexer) : (Next l).2.Cur = (Next l).1 := rfl

lemma backup_text (l : Lexer) : (Backup l).Text = l.Text := rfl

lemma backup_tokenStart (l : Lexer) : (Backup l).TokenStart = l.TokenStart := rfl

lemma backup_tokens (l : Lexer) : (Backup l).Tokens = l.Tokens := rfl

lemma pos_lt_of_drop_cons {l : Lexer} {c : Char} {rest : List Char}
    (hd : l.Text.drop l.Pos = c :: rest) : l.Pos < l.Text.length := by
  by_contra hle
  rw [List.drop_eq_nil_of_le (Nat.le_of_not_lt hle)] at hd
  simp at hd

lemma next_at_end {l : Lexer} (h : l.Text.length ≤ l.Pos) :
    (Next l).1 = runeError ∧ (Next l).2.Pos = l.Pos ∧ (Next l).2.Width = 0 := by
  have hd : l.Text.drop l.Pos = [] := List.drop_eq_nil_of_le h
  refine ⟨?_, ?_, ?_⟩ <;> simp [Next, decodeRuneInString, hd]

lemma next_of_drop_cons {l : Lexer} {c : Char} {rest : List Char}
    (hd : l.Text.drop l.Pos = c :: rest) :
    (Next l).1 = c ∧ (Next l).2.Pos = l.Pos + 1 ∧ (Next l).2.Width = 1 := by
  refine ⟨?_, ?_, ?_⟩ <;> simp [Next, decodeRuneInString, hd]

lemma next_backup_pos (l : Lexer) : (Backup (Next l).2).Pos = l.Pos := by
  simp only [Backup, Next]
  omega

lemma next_pos_ge (l : Lexer) : l.Pos ≤ (Next l).2.Pos := by
  simp only [Next]
  omega

lemma next_pos_le {l : Lexer} (h : l.Pos ≤ l.Text.length) :
    (Next l).2.Pos ≤ l.Text.length := by
  rcases hd : l.Text.drop l.Pos with _ | ⟨c, rest⟩
  · rw [(next_at_end (by_contra fun hc => by
      rw [List.drop_eq_nil_iff_le] at hd
      omega)).2.1]
    exact h
  · rw [(next_of_drop_cons hd).2.1]
    exact pos_lt_of_drop_cons hd

lemma substring_extend {t : List Char} {a b : Nat} (hab : a ≤ b) :
    t.take a ++ substring t a b = t.take b := by
  have h1 : (t.take b).take a = t.take a := by
    rw [List.take_take, Nat.min_eq_left hab]
  calc t.take a ++ substring t a b = (t.take b).take a ++ (t.take b).drop a := by
        rw [h1, substring]
    _ = t.take b := List.take_append_drop _ _

lemma substring_self (t : List Char) (a : Nat) : substring t a a = [] := by
  apply List.drop_eq_nil_of_le
  simpa [substring] using Nat.min_le_left a t.length

lemma acceptRunFunc_frame (fn : Char → Bool) :
    ∀ n, ∀ l l' : Lexer, l.Text.length - l.Pos = n → AcceptRunFunc fn l = some l' →
      l'.Text = l.Text ∧ l'.TokenStart = l.TokenStart ∧ l'.Tokens = l.Tokens ∧
      l.Pos ≤ l'.Pos ∧ (l.Pos ≤ l.Text.length → l'.Pos ≤ l.Text.length) := by
  intro n
  induction n using Nat.strong_induction_on with
  | _ n ih =>
    intro l l' hn heq
    rw [AcceptRunFunc] at heq
    split_ifs at heq with hc hg
    · rcases hd : l.Text.drop l.Pos with _ | ⟨c, rest⟩
      · exfalso
        simp [Next, decodeRuneInString, hd] at hg
      · have hlt := pos_lt_of_drop_cons hd
        have hnext : (Next l).2.Pos = l.Pos + 1 := (next_of_drop_cons hd).2.1
        have hm : (Next l).2.Text.length - (Next l).2.Pos < n := by
          rw [← hn]
          exact hg
        obtain ⟨h1, h2, h3, h4, h5⟩ := ih _ hm _ _ rfl heq
        have e1 : (Next l).2.Text.length = l.Text.length := by rw [next_text]
        rw [hnext, e1] at h5
        rw [hnext] at h4
        exact ⟨h1.trans (next_text l), h2, h3, by omega, fun hle => h5 (by omega)⟩
    · rw [Option.some.injEq] at heq
      subst heq
      refine ⟨rfl, rfl, rfl, ?_, fun hle => ?_⟩
      · rw [next_backup_pos]
      · rw [next_backup_pos]
        exact hle

/-- The set-based run is the predicate-based run at the membership
predicate (the two loops of the source are the same loop). -/
lemma acceptRun_eq_runFunc (valid : List Char) :
    ∀ n, ∀ l : Lexer, l.Text.length - l.Pos = n →
      AcceptRun valid l = AcceptRunFunc (fun r => containsRune valid r) l := by
  intro n
  induction n using Nat.strong_induction_on with
  | _ n ih =>
    intro l hn
    rw [AcceptRun, AcceptRunFunc]
    split_ifs with hc hg
    · exact ih _ (hn ▸ hg) _ rfl
    · rfl
    · rfl

lemma acceptUntil_frame (delims : List Char) :
    ∀ n, ∀ l : Lexer, l.Text.length - l.Pos = n →
      (AcceptUntil delims l).Text = l.Text ∧
      (AcceptUntil delims l).TokenStart = l.TokenStart ∧
      (AcceptUntil delims l).Tokens = l.Tokens ∧
      l.Pos ≤ (AcceptUntil delims l).Pos ∧
      (l.Pos ≤ l.Text.length → (AcceptUntil delims l).Pos ≤ l.Text.length) := by
  intro n
  induction n using Nat.strong_induction_on with
  | _ n ih =>
    intro l hn
    rw [AcceptUntil]
    split_ifs with hc h2
    · refine ⟨rfl, rfl, rfl, ?_, fun hle => ?_⟩
      · rw [next_backup_pos]
      · rw [next_backup_pos]
        exact hle
    · exact ⟨rfl, rfl, rfl, next_pos_ge l, fun hle => next_pos_le hle⟩
    · rcases hd : l.Text.drop l.Pos with _ | ⟨c, rest⟩
      · exact absurd (by simp [Next, decodeRuneInString, hd]) h2
      · have hlt := pos_lt_of_drop_cons hd
        have hnext : (Next l).2.Pos = l.Pos + 1 := (next_of_drop_cons hd).2.1
        have hm : (Next l).2.Text.length - (Next l).2.Pos < n := by
          rw [next_text, hnext, ← hn]
          omega
        obtain ⟨h1, h2', h3, h4, h5⟩ := ih _ hm _ rfl
        rw [next_text] at h1 h5
        rw [next_tokenStart] at h2'
        rw [next_tokens] at h3
        rw [hnext] at h4 h5
        exact ⟨h1, h2', h3, by omega, fun hle => h5 (by omega)⟩

lemma auuAux_frame (delims : List Char) :
    ∀ n, ∀ (l : Lexer) (b : Bool), l.Text.length - l.Pos = n →
      (AcceptUntilUnescapedAux delims l b).Text = l.Text ∧
      (AcceptUntilUnescapedAux delims l b).TokenStart = l.TokenStart ∧
      (AcceptUntilUnescapedAux delims l b).Tokens = l.Tokens ∧
      l.Pos ≤ (AcceptUntilUnescapedAux delims l b).Pos ∧
      (l.Pos ≤ l.Text.length → (AcceptUntilUnescapedAux delims l b).Pos ≤ l.Text.length) := by
  intro n
  induction n using Nat.strong_induction_on with
  | _ n ih =>
    intro l b hn
    rw [AcceptUntilUnescapedAux]
    split_ifs with h1 hc h3
    · rcases hd : l.Text.drop l.Pos with _ | ⟨c, rest⟩
      · exfalso
        rw [(next_at_end (by rw [List.drop_eq_nil_iff] at hd; exact hd)).1] at h1
        exact absurd h1.1 (by decide)
      · have hlt := pos_lt_of_drop_cons hd
        have hnext : (Next l).2.Pos = l.Pos + 1 := (next_of_drop_cons hd).2.1
        have hm : (Next l).2.Text.length - (Next l).2.Pos < n := by
          rw [next_text, hnext, ← hn]
          omega
        obtain ⟨g1, g2, g3, g4, g5⟩ := ih _ hm _ true rfl
        rw [next_text] at g1 g5
        rw [next_tokenStart] at g2
        rw [next_tokens] at g3
        rw [hnext] at g4 g5
        exact ⟨g1, g2, g3, by omega, fun hle => g5 (by omega)⟩
    · refine ⟨rfl, rfl, rfl, ?_, fun hle => ?_⟩
      · rw [next_backup_pos]
      · rw [next_backup_pos]
        exact hle
    · exact ⟨rfl, rfl, rfl, next_pos_ge l, fun hle => next_pos_le hle⟩
    · rcases hd : l.Text.drop l.Pos with _ | ⟨c, rest⟩
      · exact absurd (by simp [Next, decodeRuneInString, hd]) h3
      · have hlt := pos_lt_of_drop_cons hd
        have hnext : (Next l).2.Pos = l.Pos + 1 := (next_of_drop_cons hd).2.1
        have hm : (Next l).2.Text.length - (Next l).2.Pos < n := by
          rw [next_text, hnext, ← hn]
          omega
        obtain ⟨g1, g2, g3, g4, g5⟩ := ih _ hm _ false rfl
        rw [next_text] at g1 g5
        rw [next_tokenStart] at g2
        rw [next_tokens] at g3
        rw [hnext] at g4 g5
        exact ⟨g1, g2, g3, by omega, fun hle => g5 (by omega)⟩

/-- What a single non-`backup` operation does to the fields the invariant and
the round-trip property depend on. -/
lemma applyOp_spec {op : Op} {l l₁ : Lexer} (hne : op ≠ Op.backup) (hInv : Inv l)
    (heq : applyOp op l = some l₁) :
    l₁.Text = l.Text ∧ Inv l₁ ∧
    l₁.Text.take l₁.TokenStart =
      l.Text.take l.TokenStart ++ (List.map Seg.text (opSegs op l)).join ∧
    l₁.Tokens = l.Tokens ++ emittedTexts (opSegs op l) := by
  obtain ⟨hts, hpl⟩ := hInv
  cases op with
  | next =>
    rw [applyOp, Option.some.injEq] at heq
    subst heq
    refine ⟨rfl, ⟨hts.trans (next_pos_ge l), next_pos_le hpl⟩, ?_, ?_⟩ <;>
      simp [next_text, next_tokenStart, next_tokens, opSegs, emittedTexts]
  | backup => exact absurd rfl hne
  | peek =>
    rw [applyOp, Option.some.injEq] at heq
    subst heq
    refine ⟨rfl, ⟨?_, ?_⟩, ?_, ?_⟩ <;>
      simp [Peek, next_backup_pos, backup_text, next_text, backup_tokenStart,
        next_tokenStart, backup_tokens, next_tokens, opSegs, emittedTexts, hts, hpl]
  | ignore =>
    rw [applyOp, Option.some.injEq] at heq
    subst heq
    refine ⟨rfl, ⟨Nat.le_refl _, hpl⟩, ?_, ?_⟩ <;>
      simp [Ignore, opSegs, emittedTexts, Seg.text, substring_extend hts]
  | emit =>
    rw [applyOp, Option.some.injEq] at heq
    subst heq
    refine ⟨rfl, ⟨Nat.le_refl _, hpl⟩, ?_, ?_⟩ <;>
      simp [Emit, opSegs, emittedTexts, Seg.text, substring_extend hts]
  | accept v =>
    rw [applyOp, Option.some.injEq] at heq
    subst heq
    rw [Accept]
    split_ifs with hc
    · refine ⟨rfl, ⟨hts.trans (next_pos_ge l), next_pos_le hpl⟩, ?_, ?_⟩ <;>
        simp [next_text, next_tokenStart, next_tokens, opSegs, emittedTexts]
    · refine ⟨rfl, ⟨?_, ?_⟩, ?_, ?_⟩ <;>
        simp [next_backup_pos, backup_text, next_text, backup_tokenStart,
          next_tokenStart, backup_tokens, next_tokens, opSegs, emittedTexts, hts, hpl]
  | acceptFunc f =>
    rw [applyOp, Option.some.injEq] at heq
    subst heq
    rw [AcceptFunc]
    split_ifs with hc
    · refine ⟨rfl, ⟨hts.trans (next_pos_ge l), next_pos_le hpl⟩, ?_, ?_⟩ <;>
        simp [next_text, next_tokenStart, next_tokens, opSegs, emittedTexts]
    · refine ⟨rfl, ⟨?_, ?_⟩, ?_, ?_⟩ <;>
        simp [next_backup_pos, backup_text, next_text, backup_tokenStart,
          next_tokenStart, backup_tokens, next_tokens, opSegs, emittedTexts, hts, hpl]
  | acceptRun v =>
    rw [applyOp, acceptRun_eq_runFunc v _ l rfl] at heq
    obtain ⟨h1, h2, h3, h4, h5⟩ := acceptRunFunc_frame _ _ l l₁ rfl heq
    refine ⟨h1, ⟨h2 ▸ hts.trans h4, h1 ▸ h5 hpl⟩, ?_, ?_⟩ <;>
      simp [h1, h2, h3, opSegs, emittedTexts]
  | acceptRunFunc f =>
    rw [applyOp] at heq
    obtain ⟨h1, h2, h3, h4, h5⟩ := acceptRunFunc_frame _ _ l l₁ rfl heq
    refine ⟨h1, ⟨h2 ▸ hts.trans h4, h1 ▸ h5 hpl⟩, ?_, ?_⟩ <;>
      simp [h1, h2, h3, opSegs, emittedTexts]
  | acceptUntil d =>
    rw [applyOp, Option.some.injEq] at heq
    subst heq
    obtain ⟨h1, h2, h3, h4, h5⟩ := acceptUntil_frame d _ l rfl
    refine ⟨h1, ⟨h2 ▸ hts.trans h4, h1 ▸ h5 hpl⟩, ?_, ?_⟩ <;>
      simp [h1, h2, h3, opSegs, emittedTexts]
  | acceptUntilUnescaped d =>
    rw [applyOp, AcceptUntilUnescaped] at heq
    rw [Option.some.injEq] at heq
    subst heq
    obtain ⟨h1, h2, h3, h4, h5⟩ := auuAux_frame d _ l false rfl
    refine ⟨h1, ⟨h2 ▸ hts.trans h4, h1 ▸ h5 hpl⟩, ?_, ?_⟩ <;>
      simp [h1, h2, h3, opSegs, emittedTexts]

/-- Master induction: along any well-formed operation sequence the invariant
is preserved and the emitted/ignored segments reconstruct exactly the prefix
`Text[0:TokenStart]`. -/
lemma traced_spec {ops : List Op} (hwf : UsesBackupOnceAfterNext ops) :
    ∀ l l' : Lexer, ∀ ss : List Seg, Inv l → applyOpsTraced ops l = some (l', ss) →
      l'.Text = l.Text ∧ Inv l' ∧
      l'.Text.take l'.TokenStart =
        l.Text.take l.TokenStart ++ (ss.map Seg.text).join ∧
      l'.Tokens = l.Tokens ++ emittedTexts ss := by
  induction hwf with
  | nil =>
    intro l l' ss hInv heq
    simp only [applyOpsTraced, Option.some.injEq, Prod.mk.injEq] at heq
    obtain ⟨rfl, rfl⟩ := heq
    simp [hInv, emittedTexts]
  | @nextBackup ops h ih =>
    intro l l' ss hInv heq
    simp only [applyOpsTraced, applyOp, opSegs, List.nil_append] at heq
    have hInv₂ : Inv (Backup (Next l).2) := by
      constructor
      · rw [next_backup_pos, backup_tokenStart, next_tokenStart]
        exact hInv.1
      · rw [next_backup_pos, backup_text, next_text]
        exact hInv.2
    rcases htr : applyOpsTraced ops (Backup (Next l).2) with _ | ⟨l₂, ss₂⟩
    · rw [htr] at heq
      simp at heq
    · rw [htr] at heq
      simp only [Option.some.injEq, Prod.mk.injEq] at heq
      obtain ⟨rfl, rfl⟩ := heq
      obtain ⟨g1, g2, g3, g4⟩ := ih _ _ _ hInv₂ htr
      exact ⟨g1, g2, g3, g4⟩
  | @cons op ops hne h ih =>
    intro l l' ss hInv heq
    simp only [applyOpsTraced] at heq
    rcases hop : applyOp op l with _ | l₁
    · simp only [hop] at heq
      exact absurd heq (by simp)
    · simp only [hop] at heq
      rcases htr : applyOpsTraced ops l₁ with _ | ⟨l₂, ss₂⟩
      · simp only [htr] at heq
        exact absurd heq (by simp)
      · simp only [htr, Option.some.injEq, Prod.mk.injEq] at heq
        obtain ⟨rfl, rfl⟩ := heq
        obtain ⟨f1, f2, f3, f4⟩ := applyOp_spec hne hInv hop
        obtain ⟨g1, g2, g3, g4⟩ := ih _ _ _ f2 htr
        refine ⟨g1.trans f1, g2, ?_, ?_⟩
        · rw [g3, f3]
          simp [f1]
        · rw [g4, f4]
          simp [emittedTexts]

/-- Applying a sequence of operations agrees with the traced semantics. -/
lemma applyOps_eq_traced : ∀ (ops : List Op) (l : Lexer),
    applyOps ops l = Option.map Prod.fst (applyOpsTraced ops l) := by
  intro ops
  induction ops with
  | nil => intro l; rfl
  | cons op ops ih =>
    intro l
    rcases hop : applyOp op l with _ | l₁
    · simp only [applyOps, applyOpsTraced, hop]
      rfl
    · simp only [applyOps, applyOpsTraced, hop]
      rw [ih l₁]
      rcases htr : applyOpsTraced ops l₁ with _ | ⟨l₂, ss₂⟩ <;> rfl

lemma drop_succ_of_drop_cons {t : List Char} {p : Nat} {c : Char} {rest : List Char}
    (hd : t.drop p = c :: rest) : t.drop (p + 1) = rest := by
  rw [← List.drop_drop, hd]
  rfl

/-- A run over input made entirely of accepted non-sentinel units terminates
having consumed everything. -/
lemma acceptRun_all {valid : List Char} (hsent : containsRune valid runeError = false) :
    ∀ n, ∀ l : Lexer, l.Text.length - l.Pos = n → l.Pos ≤ l.Text.length →
      (∀ c ∈ l.Text.drop l.Pos, containsRune valid c = true) →
      ∃ l', AcceptRun valid l = some l' ∧ l'.Pos = l.Text.length ∧ l'.Text = l.Text := by
  intro n
  induction n using Nat.strong_induction_on with
  | _ n ih =>
    intro l hn hle hall
    rw [AcceptRun]
    rcases hd : l.Text.drop l.Pos with _ | ⟨c, rest⟩
    · have hend : l.Text.length ≤ l.Pos := by
        rw [List.drop_eq_nil_iff] at hd
        exact hd
      obtain ⟨e1, e2, _⟩ := next_at_end hend
      rw [e1, hsent]
      simp only [Bool.false_eq_true, if_false]
      exact ⟨Backup (Next l).2, rfl, by rw [next_backup_pos]; omega, rfl⟩
    · have hc : containsRune valid c = true := hall c (hd ▸ List.mem_cons_self c rest)
      obtain ⟨e1, e2, _⟩ := next_of_drop_cons hd
      rw [e1, hc]
      simp only [if_true]
      have hlt := pos_lt_of_drop_cons hd
      have hg : (Next l).2.Text.length - (Next l).2.Pos < l.Text.length - l.Pos := by
        rw [next_text, e2]
        omega
      rw [dif_pos hg]
      have hm : (Next l).2.Text.length - (Next l).2.Pos < n := by
        rw [← hn]
        exact hg
      have hall' : ∀ c' ∈ (Next l).2.Text.drop (Next l).2.Pos, containsRune valid c' = true := by
        intro c' hc'
        rw [next_text, e2, drop_succ_of_drop_cons hd] at hc'
        exact hall c' (hd ▸ List.mem_cons_of_mem c hc')
      obtain ⟨l', g1, g2, g3⟩ := ih _ hm _ rfl (by rw [next_text, e2]; omega) hall'
      rw [next_text] at g2 g3
      exact ⟨l', g1, g2, g3⟩

/-- `AcceptUntil` over a remainder free of delimiters and of the sentinel
rune consumes everything up to end of input. -/
lemma acceptUntil_clean (delims : List Char) :
    ∀ n, ∀ l : Lexer, l.Text.length - l.Pos = n → l.Pos ≤ l.Text.length →
      (∀ c ∈ l.Text.drop l.Pos, containsRune delims c = false ∧ c ≠ runeError) →
      (AcceptUntil delims l).Pos = l.Text.length := by
  intro n
  induction n using Nat.strong_induction_on with
  | _ n ih =>
    intro l hn hle hall
    rw [AcceptUntil]
    rcases hd : l.Text.drop l.Pos with _ | ⟨c, rest⟩
    · have hend : l.Text.length ≤ l.Pos := by
        rw [List.drop_eq_nil_iff] at hd
        exact hd
      obtain ⟨e1, e2, _⟩ := next_at_end hend
      split_ifs with hc h2
      · rw [next_backup_pos]
        omega
      · rw [e2]
        omega
      · exact absurd (next_cur l ▸ e1) h2
    · obtain ⟨hnd, hne⟩ := hall c (hd ▸ List.mem_cons_self c rest)
      obtain ⟨e1, e2, _⟩ := next_of_drop_cons hd
      rw [e1, hnd]
      simp only [Bool.false_eq_true, if_false]
      rw [dif_neg (by rw [next_cur, e1]; exact hne)]
      have hlt := pos_lt_of_drop_cons hd
      have hm : (Next l).2.Text.length - (Next l).2.Pos < n := by
        rw [next_text, e2, ← hn]
        omega
      have hall' : ∀ c' ∈ (Next l).2.Text.drop (Next l).2.Pos,
          containsRune delims c' = false ∧ c' ≠ runeError := by
        intro c' hc'
        rw [next_text, e2, drop_succ_of_drop_cons hd] at hc'
        exact hall c' (hd ▸ List.mem_cons_of_mem c hc')
      have := ih _ hm _ rfl (by rw [next_text, e2]; omega) hall'
      rw [next_text] at this
      exact this

/-- C10: with the cursor at end of input, `Next` returns the sentinel rune
U+FFFD, sets `Width` to 0 and leaves `Pos` unchanged at `len(Text)`; a
`Backup` immediately after such a `Next` is a no-op, so it never rewinds past
the true end of input. -/
theorem next_at_eof_sentinel (l : Lexer) (h : l.Pos = l.Text.length) :
    (Next l).1 = runeError ∧ (Next l).2.Width = 0 ∧ (Next l).2.Pos = l.Pos ∧
    Backup (Next l).2 = (Next l).2 := by
  obtain ⟨h1, h2, h3⟩ := next_at_end (Nat.le_of_eq h.symm)
  refine ⟨h1, h3, h2, ?_⟩
  have e : (Next l).2.Pos - (Next l).2.Width = (Next l).2.Pos := by
    rw [h3, Nat.sub_zero]
  rw [Backup, e]

/-- Witness for `next_at_eof_sentinel`: a concrete cursor at end of input. -/
theorem next_at_eof_sentinel_witness :
    (Next ⟨['a'], 1, 1, 'a', Char.ofNat 0, [], 0⟩).1 = runeError ∧
    (Next ⟨['a'], 1, 1, 'a', Char.ofNat 0, [], 0⟩).2.Width = 0 ∧
    (Next ⟨['a'], 1, 1, 'a', Char.ofNat 0, [], 0⟩).2.Pos =
      (⟨['a'], 1, 1, 'a', Char.ofNat 0, [], 0⟩ : Lexer).Pos ∧
    Backup (Next ⟨['a'], 1, 1, 'a', Char.ofNat 0, [], 0⟩).2 =
      (Next ⟨['a'], 1, 1, 'a', Char.ofNat 0, [], 0⟩).2 :=
  next_at_eof_sentinel ⟨['a'], 1, 1, 'a', Char.ofNat 0, [], 0⟩ rfl

/-- C4 counterexample: a single `Peek` does not leave the cursor state
identical to what it was before the call; on a fresh lexer over `ab` it
overwrites `Cur` and `Width` (the claim asserts the state is left
identical). -/
theorem peek_mutates_cur : (Peek (New ['a', 'b'])).2 ≠ New ['a', 'b'] := by
  decide

/-- C4 amended: `Peek` never mutates `Pos` (nor `TokenStart`, `Tokens` or
`Text`), and consecutive `Peek` calls all return the same unit; however
`Peek` does update `Cur`, `Prev` and `Width` exactly as the decode step of
`Next` does, so the full cursor state is not left identical (the state
stabilises from the second consecutive `Peek` on). -/
theorem peek_spec (l : Lexer) :
    (Peek l).2.Pos = l.Pos ∧ (Peek l).2.TokenStart = l.TokenStart ∧
    (Peek l).2.Tokens = l.Tokens ∧ (Peek l).2.Text = l.Text ∧
    (Peek (Peek l).2).1 = (Peek l).1 ∧
    Peek (Peek (Peek l).2).2 = Peek (Peek l).2 := by
  refine ⟨next_backup_pos l, rfl, rfl, rfl, ?_, ?_⟩ <;>
  · rcases hd : l.Text.drop l.Pos with _ | ⟨c, rest⟩ <;>
      simp [Peek, Next, Backup, decodeRuneInString, hd]

/-- C5: `Emit` appends a token whose text is `Text[TokenStart:Pos]` to the
token sequence and moves `TokenStart` up to `Pos` (leaving `Pos` itself
unchanged); consequently a second `Emit` with no intervening advance appends
a token with empty text, and `Ignore` followed immediately by `Emit` appends
a token with empty text. -/
theorem emit_spec (l : Lexer) :
    (Emit l).Tokens = l.Tokens ++ [substring l.Text l.TokenStart l.Pos] ∧
    (Emit l).TokenStart = (Emit l).Pos ∧ (Emit l).Pos = l.Pos ∧
    (Emit (Emit l)).Tokens = (Emit l).Tokens ++ [[]] ∧
    (Emit (Ignore l)).Tokens = l.Tokens ++ [[]] := by
  refine ⟨rfl, rfl, rfl, ?_, ?_⟩ <;> simp [Emit, Ignore, substring_self]

/-- C8: the set-based accept variants are the predicate-based ones applied to
the membership predicate of the set: `Accept valid` and `AcceptRun valid`
leave the cursor in exactly the same state as `AcceptFunc` and
`AcceptRunFunc` applied to membership in `valid` (for the run variants the
two agree as `Option` results, hence also on the divergent cases). -/
theorem accept_refines_func (valid : List Char) (l : Lexer) :
    (Accept valid l).2 = AcceptFunc (fun r => containsRune valid r) l ∧
    AcceptRun valid l = AcceptRunFunc (fun r => containsRune valid r) l := by
  refine ⟨?_, acceptRun_eq_runFunc valid _ l rfl⟩
  rw [Accept, AcceptFunc]
  split_ifs <;> rfl

/-- C2 counterexample: with the cursor at end of input and the sentinel rune
U+FFFD in the set, `Accept` returns true although there is no unit left, and
it consumes nothing even though the decoded "next unit" is a member of the
set — so "consumes one unit if and only if the next unit is a member, and
returns whether it matched" fails at this input. -/
theorem accept_sentinel_cex :
    containsRune [runeError] (nextUnit (New ([] : List Char))) = true ∧
    (Accept [runeError] (New ([] : List Char))).1 = true ∧
    (Accept [runeError] (New ([] : List Char))).2.Pos = (New ([] : List Char)).Pos ∧
    (Accept [runeError] (New ([] : List Char))).2.Pos ≠ (New ([] : List Char)).Pos + 1 := by
  decide

/-- C2 amended: `Accept` returns whether the decoded unit (the sentinel at
end of input) is a member of the set; while input remains, it consumes one
unit if and only if the next unit is a member; at end of input it consumes
nothing; and whenever `Accept`, `AcceptRun` or `AcceptFunc` matches nothing,
`Pos` is unchanged after the call. -/
theorem accept_spec (valid : List Char) (fn : Char → Bool) (l : Lexer) :
    ((Accept valid l).1 = containsRune valid (nextUnit l)) ∧
    (l.Pos < l.Text.length →
      ((Accept valid l).2.Pos = l.Pos + 1 ↔ containsRune valid (nextUnit l) = true)) ∧
    (l.Text.length ≤ l.Pos → (Accept valid l).2.Pos = l.Pos) ∧
    ((Accept valid l).1 = false → (Accept valid l).2.Pos = l.Pos) ∧
    (fn (nextUnit l) = false → (AcceptFunc fn l).Pos = l.Pos) ∧
    (containsRune valid (nextUnit l) = false →
      AcceptRun valid l = some (Backup (Next l).2) ∧ (Backup (Next l).2).Pos = l.Pos) := by
  refine ⟨?_, ?_, ?_, ?_, ?_, ?_⟩
  · rw [Accept, nextUnit]
    split_ifs with hc
    · exact hc.symm
    · exact (Bool.not_eq_true _).mp hc |>.symm
  · intro hlt
    rcases hd : l.Text.drop l.Pos with _ | ⟨c, rest⟩
    · exact absurd (List.drop_eq_nil_iff.mp hd) (by omega)
    · obtain ⟨e1, e2, _⟩ := next_of_drop_cons hd
      rw [Accept, nextUnit, e1]
      split_ifs with hc
      · simpa [e2] using hc
      · rw [next_backup_pos]
        simp only [(Bool.not_eq_true _).mp hc, Bool.false_eq_true, iff_false]
        omega
  · intro hge
    obtain ⟨_, e2, _⟩ := next_at_end hge
    rw [Accept]
    split_ifs
    · exact e2
    · exact next_backup_pos l
  · intro hfalse
    rw [Accept] at hfalse ⊢
    split_ifs at hfalse ⊢ with hc
    · exact next_backup_pos l
  · intro hfalse
    rw [AcceptFunc, nextUnit] at *
    rw [if_neg (by rw [hfalse]; exact Bool.false_ne_true)]
    exact next_backup_pos l
  · intro hfalse
    rw [AcceptRun, nextUnit] at *
    rw [if_neg (by rw [hfalse]; exact Bool.false_ne_true)]
    exact ⟨rfl, next_backup_pos l⟩

/-- Witness for `accept_spec`: the consumption equivalence discharged on a
fresh lexer over `ab` with a unit remaining, and the failure frame conditions
discharged there as well. -/
theorem accept_spec_witness :
    ((Accept ['a'] (New ['a', 'b'])).2.Pos = (New ['a', 'b']).Pos + 1 ↔
      containsRune ['a'] (nextUnit (New ['a', 'b'])) = true) ∧
    (AcceptFunc (fun r => containsRune ['z'] r) (New ['a', 'b'])).Pos = (New ['a', 'b']).Pos ∧
    (Accept ['z'] (New ['a', 'b'])).1 = false ∧
    (Accept ['z'] (New ['a', 'b'])).2.Pos = (New ['a', 'b']).Pos :=
  ⟨(accept_spec ['a'] (fun r => containsRune ['z'] r) (New ['a', 'b'])).2.1 (by decide),
   (accept_spec ['a'] (fun r => containsRune ['z'] r) (New ['a', 'b'])).2.2.2.2.1 (by decide),
   by decide,
   (accept_spec ['z'] (fun r => containsRune ['z'] r) (New ['a', 'b'])).2.2.2.1 (by decide)⟩

/-- C3 counterexample: the sequence Next; Emit; Backup observes the
documented once-per-`Next` discipline (`BackupOncePerNext`): its only
`Backup` has a preceding `Next`.  Yet from a fresh lexer over `ab` it ends
with `TokenStart = 1 > Pos = 0` — `Emit` moved `TokenStart` up to the
position that the later `Backup` rewinds below — so the invariant is not
preserved under the precondition as claimed.  The same steps in the Go code
leave `tokenStart = 1`, `pos = 0` with no panic. -/
theorem backup_after_emit_breaks_invariant :
    BackupOncePerNext [Op.next, Op.emit, Op.backup] false = true ∧
    applyOps [Op.next, Op.emit, Op.backup] (New ['a', 'b']) =
      some ⟨['a', 'b'], 0, 1, 'a', Char.ofNat 0, [['a']], 1⟩ ∧
    ¬((⟨['a', 'b'], 0, 1, 'a', Char.ofNat 0, [['a']], 1⟩ : Lexer).TokenStart ≤
      (⟨['a', 'b'], 0, 1, 'a', Char.ofNat 0, [['a']], 1⟩ : Lexer).Pos) := by
  decide

/-- C3 amended: the invariant `0 <= TokenStart <= Pos <= len(Text)` holds for
a fresh lexer and after any sequence of public operations in which every
`Backup` is invoked immediately after its preceding `Next`, with no other
engine operation in between — a strengthening of the documented
once-per-`Next` precondition, which by itself does not preserve the
invariant. -/
theorem invariant_holds (text : List Char) (ops : List Op) (l' : Lexer)
    (hwf : UsesBackupOnceAfterNext ops) (h : applyOps ops (New text) = some l') :
    0 ≤ l'.TokenStart ∧ l'.TokenStart ≤ l'.Pos ∧ l'.Pos ≤ l'.Text.length := by
  rw [applyOps_eq_traced] at h
  rcases htr : applyOpsTraced ops (New text) with _ | ⟨l₂, ss⟩
  · rw [htr] at h
    exact absurd h (by simp)
  · rw [htr] at h
    simp only [Option.map_some', Option.some.injEq] at h
    subst h
    obtain ⟨g1, g2, g3, g4⟩ :=
      traced_spec hwf (New text) l₂ ss ⟨Nat.le_refl 0, Nat.zero_le _⟩ htr
    exact ⟨Nat.zero_le _, g2.1, g2.2⟩

/-- Witness for `invariant_holds`: the sequence next, backup, emit over `ab`,
which ends in the state below. -/
theorem invariant_holds_witness :
    0 ≤ (⟨['a', 'b'], 0, 1, 'a', Char.ofNat 0, [[]], 0⟩ : Lexer).TokenStart ∧
    (⟨['a', 'b'], 0, 1, 'a', Char.ofNat 0, [[]], 0⟩ : Lexer).TokenStart ≤
      (⟨['a', 'b'], 0, 1, 'a', Char.ofNat 0, [[]], 0⟩ : Lexer).Pos ∧
    (⟨['a', 'b'], 0, 1, 'a', Char.ofNat 0, [[]], 0⟩ : Lexer).Pos ≤
      (⟨['a', 'b'], 0, 1, 'a', Char.ofNat 0, [[]], 0⟩ : Lexer).Text.length :=
  invariant_holds ['a', 'b'] [Op.next, Op.backup, Op.emit] _
    (UsesBackupOnceAfterNext.nextBackup
      (UsesBackupOnceAfterNext.cons (fun hh => Op.noConfusion hh)
        UsesBackupOnceAfterNext.nil))
    rfl

/-- C9 counterexample: Next; Emit; Backup; Ignore observes the documented
once-per-`Next` discipline, yet from a fresh lexer over `ab` the emitted and
ignored segments concatenate to `a` while `Text[0:TokenStart]` is empty (the
final `TokenStart` is 0): the `Backup` rewound `Pos` below the end of the
already-emitted token, so the outputs do not reconstruct a prefix. -/
theorem backup_after_emit_breaks_roundtrip :
    BackupOncePerNext [Op.next, Op.emit, Op.backup, Op.ignore] false = true ∧
    applyOpsTraced [Op.next, Op.emit, Op.backup, Op.ignore] (New ['a', 'b']) =
      some (⟨['a', 'b'], 0, 1, 'a', Char.ofNat 0, [['a']], 0⟩,
        [Seg.emitted ['a'], Seg.ignored []]) ∧
    ([Seg.emitted ['a'], Seg.ignored []].map Seg.text).join ≠
      (['a', 'b'] : List Char).take
        (⟨['a', 'b'], 0, 1, 'a', Char.ofNat 0, [['a']], 0⟩ : Lexer).TokenStart := by
  decide

/-- C9 amended: after any sequence of engine operations from `New text` in
which every `Backup` immediately follows its `Next`, the concatenation, in
order, of all emitted tokens' texts together with every segment discarded by
`Ignore` equals `Text[0:TokenStart]`, a prefix of the original input
consistent with the final position (`TokenStart ≤ Pos`); the emitted
segments are exactly the token sequence.  Under the merely documented
once-per-`Next` discipline the reconstruction can fail. -/
theorem roundtrip (text : List Char) (ops : List Op) (l' : Lexer) (ss : List Seg)
    (hwf : UsesBackupOnceAfterNext ops)
    (h : applyOpsTraced ops (New text) = some (l', ss)) :
    (ss.map Seg.text).join = text.take l'.TokenStart ∧
    l'.Tokens = emittedTexts ss ∧ l'.TokenStart ≤ l'.Pos := by
  obtain ⟨g1, g2, g3, g4⟩ :=
    traced_spec hwf (New text) l' ss ⟨Nat.le_refl 0, Nat.zero_le _⟩ h
  refine ⟨?_, by simpa [New] using g4, g2.1⟩
  rw [g1] at g3
  simpa [New] using g3.symm

/-- Witness for `roundtrip`: accept `a`, emit, advance, ignore over `ab`. -/
theorem roundtrip_witness :
    ([Seg.emitted ['a'], Seg.ignored ['b']].map Seg.text).join =
      (['a', 'b'] : List Char).take 2 ∧
    (⟨['a', 'b'], 2, 1, 'b', 'a', [['a']], 2⟩ : Lexer).Tokens =
      emittedTexts [Seg.emitted ['a'], Seg.ignored ['b']] ∧
    (⟨['a', 'b'], 2, 1, 'b', 'a', [['a']], 2⟩ : Lexer).TokenStart ≤
      (⟨['a', 'b'], 2, 1, 'b', 'a', [['a']], 2⟩ : Lexer).Pos :=
  roundtrip ['a', 'b'] [Op.accept ['a'], Op.emit, Op.next, Op.ignore] _ _
    (UsesBackupOnceAfterNext.cons (fun hh => Op.noConfusion hh)
      (UsesBackupOnceAfterNext.cons (fun hh => Op.noConfusion hh)
        (UsesBackupOnceAfterNext.cons (fun hh => Op.noConfusion hh)
          (UsesBackupOnceAfterNext.cons (fun hh => Op.noConfusion hh)
            UsesBackupOnceAfterNext.nil))))
    rfl

/-- C6 counterexample: with the sentinel rune U+FFFD in the accepted set and
the empty input (which vacuously consists entirely of members of the set),
the Go loop tests the sentinel at end of input, succeeds, consumes nothing
and repeats forever; the run has no final state, so in particular it does not
leave the cursor at end of input. -/
theorem acceptRun_sentinel_divergence :
    AcceptRun [runeError] (New ([] : List Char)) = none := by
  simp [AcceptRun, New, Next, Backup, decodeRuneInString, containsRune, runeError]

/-- C6 amended: for every rune set not containing the sentinel U+FFFD and
every input consisting entirely of members of that set, a single
`AcceptRun` call terminates, consumes the whole input, and leaves the cursor
at end of input. -/
theorem acceptRun_consumes_all (valid text : List Char)
    (hsent : containsRune valid runeError = false)
    (hall : ∀ c ∈ text, containsRune valid c = true) :
    ∃ l', AcceptRun valid (New text) = some l' ∧
      l'.Pos = text.length ∧ l'.Text = text :=
  acceptRun_all hsent (text.length) (New text) rfl (Nat.zero_le _) hall

/-- Witness for `acceptRun_consumes_all`: over `ab` with set `ab` the run
ends at position 2. -/
theorem acceptRun_consumes_all_witness :
    Option.map Lexer.Pos (AcceptRun ['a', 'b'] (New ['a', 'b'])) = some 2 := by
  obtain ⟨l', h1, h2, _⟩ :=
    acceptRun_consumes_all ['a', 'b'] ['a', 'b'] (by decide) (by decide)
  rw [h1]
  simp [h2]

/-- C7 counterexample: on the valid input `a`, U+FFFD, `b` with delimiter set
`z` the input contains no delimiter, yet `AcceptUntil` stops at the literal
U+FFFD occurrence (which decodes to the sentinel value), at position 2 rather
than at end of input (position 3). -/
theorem acceptUntil_sentinel_stop :
    (∀ c ∈ (['a', runeError, 'b'] : List Char), containsRune ['z'] c = false) ∧
    (AcceptUntil ['z'] (New ['a', runeError, 'b'])).Pos = 2 ∧
    (['a', runeError, 'b'] : List Char).length = 3 ∧ (2 : Nat) ≠ 3 := by
  refine ⟨by decide, ?_, by decide, by decide⟩
  simp [AcceptUntil, New, Next, Backup, decodeRuneInString, containsRune, runeError]

/-- C7 amended: `AcceptUntil` and `AcceptUntilUnescaped` terminate on every
input (they are total functions; the sentinel is an implicit stop condition
keeping the final position within bounds); in particular `AcceptUntil` over a
remainder containing no delimiter and no occurrence of the sentinel rune
consumes all remaining input and leaves `Pos` at end of input. -/
theorem acceptUntil_terminates (delims : List Char) (l : Lexer)
    (hle : l.Pos ≤ l.Text.length) :
    (AcceptUntil delims l).Pos ≤ l.Text.length ∧
    (AcceptUntilUnescaped delims l).Pos ≤ l.Text.length ∧
    ((∀ c ∈ l.Text.drop l.Pos, containsRune delims c = false ∧ c ≠ runeError) →
      (AcceptUntil delims l).Pos = l.Text.length) :=
  ⟨(acceptUntil_frame delims _ l rfl).2.2.2.2 hle,
   (auuAux_frame delims _ l false rfl).2.2.2.2 hle,
   fun hall => acceptUntil_clean delims _ l rfl hle hall⟩

/-- Witness for `acceptUntil_terminates`: over `ab` with delimiter set `z`
the scan ends exactly at end of input. -/
theorem acceptUntil_terminates_witness :
    (AcceptUntilUnescaped ['z'] (New ['a', 'b'])).Pos ≤
      (New ['a', 'b']).Text.length ∧
    (AcceptUntil ['z'] (New ['a', 'b'])).Pos = (New ['a', 'b']).Text.length :=
  ⟨(acceptUntil_terminates ['z'] (New ['a', 'b']) (by decide)).2.1,
   (acceptUntil_terminates ['z'] (New ['a', 'b']) (by decide)).2.2 (by decide)⟩

/-- Entering the loop with the escape flag off, an unescaped delimiter other
than the escape marker itself is a stop point: nothing is consumed. -/
lemma auu_stop_at_delim (delims : List Char) (l : Lexer)
    (hdel : containsRune delims (nextUnit l) = true) (hne : nextUnit l ≠ '\\') :
    (AcceptUntilUnescaped delims l).Pos = l.Pos := by
  rw [AcceptUntilUnescaped, AcceptUntilUnescapedAux]
  rw [dif_neg (by rintro ⟨hh, _⟩; exact hne hh)]
  rw [if_pos ⟨hdel, rfl⟩]
  exact next_backup_pos l

/-- An escape marker followed by any unit other than the sentinel makes the
loop consume both units and continue scanning with the escape flag off. -/
lemma auu_escape_step (delims : List Char) (l : Lexer) {u : Char} {rest : List Char}
    (hd : l.Text.drop l.Pos = '\\' :: u :: rest) (hu : u ≠ runeError) :
    AcceptUntilUnescaped delims l = AcceptUntilUnescaped delims (Next (Next l).2).2 ∧
    (Next (Next l).2).2.Pos = l.Pos + 2 ∧ (Next (Next l).2).2.Text = l.Text := by
  obtain ⟨e1, e2, _⟩ := next_of_drop_cons hd
  have hd2 : (Next l).2.Text.drop (Next l).2.Pos = u :: rest := by
    rw [next_text, e2, drop_succ_of_drop_cons hd]
  obtain ⟨f1, f2, _⟩ := next_of_drop_cons hd2
  refine ⟨?_, by rw [f2, e2], by rw [next_text, next_text]⟩
  rw [AcceptUntilUnescaped, AcceptUntilUnescapedAux]
  rw [dif_pos ⟨e1, rfl⟩]
  rw [AcceptUntilUnescapedAux]
  rw [dif_neg (by rintro ⟨_, hh⟩; exact absurd hh (by decide))]
  rw [if_neg (by rintro ⟨_, hh⟩; exact absurd hh (by decide))]
  rw [dif_neg (by rw [next_cur, f1]; exact hu)]
  rfl

/-- A delimiter preceded by exactly two escape markers is a stop point: the
escape flag has been cleared by the second marker, so the scan ends right
after the marker pair. -/
lemma auu_double_escape (delims : List Char) (l : Lexer) {d : Char} {rest : List Char}
    (hd : l.Text.drop l.Pos = '\\' :: '\\' :: d :: rest)
    (hdel : containsRune delims d = true) (hne : d ≠ '\\') :
    (AcceptUntilUnescaped delims l).Pos = l.Pos + 2 := by
  obtain ⟨heq, hpos, htext⟩ := auu_escape_step delims l hd (by decide)
  rw [heq]
  have hd3 : (Next (Next l).2).2.Text.drop (Next (Next l).2).2.Pos = d :: rest := by
    rw [htext, hpos]
    exact drop_succ_of_drop_cons (drop_succ_of_drop_cons hd)
  obtain ⟨g1, _, _⟩ := next_of_drop_cons hd3
  have hstop := auu_stop_at_delim delims (Next (Next l).2).2
    (by rw [nextUnit, g1]; exact hdel) (by rw [nextUnit, g1]; exact hne)
  rw [hstop, hpos]

/-- C1: `AcceptUntilUnescaped` stops, consuming nothing further, at an
unescaped delimiter (other than the escape marker itself); an escape marker
followed by a non-sentinel unit is consumed together with that unit and
scanning continues with the escape state off, so a delimiter preceded by
exactly two escape markers is a stop point right after the marker pair; and
over `123\"abc"def` with delimiter set `"` the first call consumes exactly
`123\"abc` (position 8), after which a second call with delimiter set `z`
consumes the remainder `"def` to end of input (position 12). -/
theorem acceptUntilUnescaped_spec :
    (∀ (delims : List Char) (l : Lexer),
      containsRune delims (nextUnit l) = true → nextUnit l ≠ '\\' →
      (AcceptUntilUnescaped delims l).Pos = l.Pos) ∧
    (∀ (delims : List Char) (l : Lexer) (u : Char) (rest : List Char),
      l.Text.drop l.Pos = '\\' :: u :: rest → u ≠ runeError →
      AcceptUntilUnescaped delims l =
        AcceptUntilUnescaped delims (Next (Next l).2).2 ∧
      (Next (Next l).2).2.Pos = l.Pos + 2) ∧
    (∀ (delims : List Char) (l : Lexer) (d : Char) (rest : List Char),
      l.Text.drop l.Pos = '\\' :: '\\' :: d :: rest →
      containsRune delims d = true → d ≠ '\\' →
      (AcceptUntilUnescaped delims l).Pos = l.Pos + 2) ∧
    ((AcceptUntilUnescaped ['"'] (New escText)).Pos = 8 ∧
      substring escText 0 8 = ['1', '2', '3', '\\', '"', 'a', 'b', 'c'] ∧
      (AcceptUntilUnescaped ['z'] (AcceptUntilUnescaped ['"'] (New escText))).Pos = 12 ∧
      escText.length = 12) := by
  refine ⟨auu_stop_at_delim,
    fun delims l u rest hd hu =>
      ⟨(auu_escape_step delims l hd hu).1, (auu_escape_step delims l hd hu).2.1⟩,
    fun delims l d rest hd hdel hne => auu_double_escape delims l hd hdel hne,
    ?_, by decide, ?_, by decide⟩ <;>
  simp [AcceptUntilUnescaped, AcceptUntilUnescapedAux, New, Next, Backup,
    decodeRuneInString, containsRune, runeError, escText]

/-- Witness for `acceptUntilUnescaped_spec`: the three general clauses
discharged on concrete inputs (a leading delimiter; an escape pair; a
delimiter after a double escape marker). -/
theorem acceptUntilUnescaped_spec_witness :
    (AcceptUntilUnescaped ['"'] (New ['"', 'x'])).Pos = (New ['"', 'x']).Pos ∧
    AcceptUntilUnescaped ['q'] (New ['\\', 'a']) =
      AcceptUntilUnescaped ['q'] ((Next (Next (New ['\\', 'a'])).2).2) ∧
    (AcceptUntilUnescaped ['"'] (New ['\\', '\\', '"'])).Pos =
      (New ['\\', '\\', '"']).Pos + 2 :=
  ⟨acceptUntilUnescaped_spec.1 ['"'] (New ['"', 'x']) (by decide) (by decide),
   (acceptUntilUnescaped_spec.2.1 ['q'] (New ['\\', 'a']) 'a' []
     (by decide) (by decide)).1,
   acceptUntilUnescaped_spec.2.2.1 ['"'] (New ['\\', '\\', '"']) '"' []
     (by decide) (by decide) (by decide)⟩

/-- C1 counterexample: the universally quantified escape law fails when the
sentinel value is involved.  With delimiter set containing U+FFFD over input
`\`, U+FFFD, `x`: the delimiter U+FFFD is preceded by a single escape
marker, both units are consumed, but scanning does not continue — it stops at
position 2, while continuing from after the pair would reach position 3; and
with the escape marker itself as the delimiter over `\x`, the scan does not
stop at the unescaped leading delimiter but consumes the whole input. -/
theorem acceptUntilUnescaped_sentinel_cex :
    (AcceptUntilUnescaped [runeError] (New ['\\', runeError, 'x'])).Pos = 2 ∧
    (AcceptUntilUnescaped [runeError]
      ((Next (Next (New ['\\', runeError, 'x'])).2).2)).Pos = 3 ∧
    (2 : Nat) ≠ 3 ∧
    (AcceptUntilUnescaped ['\\'] (New ['\\', 'x'])).Pos = 2 ∧
    (New ['\\', 'x']).Pos = 0 := by
  refine ⟨?_, ?_, by decide, ?_, rfl⟩ <;>
  simp [AcceptUntilUnescaped, AcceptUntilUnescapedAux, New, Next, Backup,
    decodeRuneInString, containsRune, runeError]

end Rplex
